import Mathlib

/-!
Paice/Husk suffix-stripping stemmer: a shallow embedding of `paicehusk_ansic.c`.

This file translates the core of the C program (rule compiler `LoadRules`,
acceptability checker `IsValid`, matcher `RuleMatches`, rewriter `ApplyRule`,
and the stemming loop `StemWord`) into executable Lean definitions and proves
properties about them.

Modelling conventions:
* C strings become `List Char`; a character read from a `FILE *` becomes an
  `Option Char` (`none` models `EOF`).
* The fixed-size buffers (`LONGSTR = 255`, so 254 payload characters for the
  stem buffers) are modelled by explicit `take 254` truncation exactly where
  the C code calls `strncpy`/`strncat` with that bound.  The `SHORTSTR`
  rule-field buffers and the `HUGESTR` debug buffer are modelled as unbounded
  lists: overflowing them is undefined behaviour in C, not wraparound, and no
  theorem below depends on their bound.
* Loops that do not structurally consume their input carry explicit fuel:
  `stemIter`'s fuel counts iterations of `StemWord`'s `while (restem)` loop
  (the C loop genuinely diverges for some rule tables), and `loadLoop`'s fuel
  is always instantiated with more than the stream length, which each
  iteration strictly consumes.
* `StemWord`'s read of `stem[strlen(stem) - 1]` and the index
  `rules[last_letter - 97]` are well defined in C only for a non-empty stem
  ending in a lowercase letter; the embedding returns the empty bucket in the
  out-of-range cases, which are unreachable for stems that passed `IsValid`
  against a compiled table.
-/

namespace PaiceHusk

/-- ASCII NUL, the C string terminator. -/
def nulChar : Char := Char.ofNat 0

/-- C `isalpha` in the default locale: `A`–`Z` or `a`–`z`. -/
def isAlphaC (c : Char) : Bool :=
  (97 ≤ c.toNat && c.toNat ≤ 122) || (65 ≤ c.toNat && c.toNat ≤ 90)

/-- C `isdigit`: `0`–`9`. -/
def isDigitC (c : Char) : Bool :=
  48 ≤ c.toNat && c.toNat ≤ 57

/-- C `isspace` in the default locale: space, `\t`, `\n`, `\v`, `\f`, `\r`. -/
def isSpaceC (c : Char) : Bool :=
  c.toNat = 32 || (9 ≤ c.toNat && c.toNat ≤ 13)

/-- One compiled rule (C `rule_t`); the `next` pointer becomes list structure
in the table's buckets. -/
structure Rule where
  intact : Bool
  remove : Nat
  restem : Bool
  suffix : List Char
  append : List Char
  id : List Char
  deriving DecidableEq, Repr

/-- The rule table (C `rule_t ** rules`, 26 bucket heads indexed by
`letter - 97`); modelled as a function from the bucket letter. -/
def RuleTable : Type := Char → List Rule

/-- The freshly `calloc`ed table: every bucket empty. -/
def emptyTable : RuleTable := fun _ => []

/-- Append a rule at the end of one bucket (the C walk of the `next` chain). -/
def addRule (T : RuleTable) (key : Char) (r : Rule) : RuleTable :=
  fun d => if d = key then T d ++ [r] else T d

/-- C `IsValid` (lines 262–280): a stem starting with a vowel is acceptable
iff its length is at least 2; any other stem is acceptable iff its length is
at least 3 and it contains one of `a,e,i,o,u,y`.  `stem[0]` of the empty
string is the NUL terminator, which is not a vowel. -/
def IsValid (stem : List Char) : Bool :=
  let c0 := stem.headD nulChar
  if c0 = 'a' || c0 = 'e' || c0 = 'i' || c0 = 'o' || c0 = 'u' then
    decide (2 ≤ stem.length)
  else
    decide (3 ≤ stem.length) &&
      (stem.contains 'a' || stem.contains 'e' || stem.contains 'i' ||
       stem.contains 'o' || stem.contains 'u' || stem.contains 'y')

/-- C `RuleMatches` (lines 288–297): an intact-only rule needs an intact
word; the rule's suffix must be no longer than the stem and equal to the
stem's tail of that length. -/
def RuleMatches (r : Rule) (stem : List Char) (intact : Bool) : Bool :=
  if !intact && r.intact then false
  else if decide (stem.length < r.suffix.length) then false
  else if decide (r.suffix = stem.drop (stem.length - r.suffix.length)) then true
  else false

/-- C `ApplyRule` (lines 306–320): copy at most 254 characters of the stem
(`strncpy` with `LONGSTR - 1`), drop `remove` trailing characters when
`remove` is non-zero (clamping at the empty string via the `newlen < 0`
check, which is `Nat` truncated subtraction here), then append at most
`254 - length` characters of `append` (`strncat`). -/
def ApplyRule (r : Rule) (stem : List Char) : List Char :=
  let ns := stem.take 254
  let nr := if r.remove ≠ 0 then ns.take (ns.length - r.remove) else ns
  nr ++ r.append.take (254 - nr.length)

/-- The bucket `StemWord` scans: `rules[last_letter - 97]` for the stem's
last character (empty for the empty stem, which cannot reach the scan). -/
def bucketFor (rules : RuleTable) (stem : List Char) : List Rule :=
  match stem.getLast? with
  | some c => rules c
  | none => []

/-- The bucket scan inside `StemWord`'s `for` loop (lines 360–384): the first
rule that matches and whose `ApplyRule` result passes `IsValid` wins;
the winning rule and its candidate are returned. -/
def firstWin (bucket : List Rule) (stem : List Char) (intact : Bool) :
    Option (Rule × List Char) :=
  match bucket with
  | [] => none
  | r :: rest =>
    if RuleMatches r stem intact then
      let cand := ApplyRule r stem
      if IsValid cand then some (r, cand) else firstWin rest stem intact
    else firstWin rest stem intact

/-- One execution of `StemWord`'s `while (restem)` loop, with explicit fuel
counting loop iterations; `none` means the fuel ran out, i.e. the C loop
would still be running.  The state is the current stem, the `intact` flag and
the debug string accumulated so far. -/
def stemIter (rules : RuleTable) : Nat → List Char → Bool → List Char →
    Option (List Char × List Char)
  | 0, _, _, _ => none
  | fuel + 1, stem, intact, dbg =>
    match firstWin (bucketFor rules stem) stem intact with
    | none => some (stem, dbg)
    | some (r, cand) =>
      let stem' := cand.take 254
      let dbg' := dbg ++ (' ' :: '=' :: r.id) ++ ('=' :: '>' :: ' ' :: stem')
      if r.restem then stemIter rules fuel stem' false dbg'
      else some (stem', dbg')

/-- C `StemWord` (lines 330–386): truncate the word into the stem buffer,
return it untouched (with an empty debug string) when it fails `IsValid`,
otherwise seed the debug string with the stem and run the loop.  The result
is the final stem paired with the debug string; `none` models the loop not
terminating within `fuel` iterations. -/
def StemWord (fuel : Nat) (rules : RuleTable) (word : List Char) :
    Option (List Char × List Char) :=
  let stem := word.take 254
  if IsValid stem then stemIter rules fuel stem true stem
  else some (stem, [])

/-- The C call terminates on `word` for table `rules`: some number of loop
iterations suffices. -/
def StemTerminates (rules : RuleTable) (word : List Char) : Prop :=
  ∃ fuel out, StemWord fuel rules word = some out

/-! ## The rule compiler (`ReverseString`, `LoadRules`) -/

/-- One iteration bundle of the `ReverseString` swap loop: `ch = str[last-i];
str[last-i] = str[i]; str[i] = ch`, iterated with `i` counting up while
`fuel` counts the remaining iterations. -/
def revFor (last : Nat) : Nat → Nat → List Char → List Char
  | _, 0, l => l
  | i, fuel + 1, l =>
    let ch := l.getD (last - i) nulChar
    revFor last (i + 1) fuel ((l.set (last - i) (l.getD i nulChar)).set i ch)

/-- C `ReverseString` (lines 106–121): reverse a string in place by swapping
`str[i]` with `str[last - i]` for `i < (last + 1) / 2`. -/
def ReverseString (l : List Char) : List Char :=
  let last := l.length - 1
  revFor last 0 ((last + 1) / 2) l

/-- C `fgetc`: the next character of the stream, or `none` at end of file. -/
def getc : List Char → Option Char × List Char
  | [] => (none, [])
  | c :: s => (some c, s)

/-- A maximal run of characters satisfying `p`, starting from the current
character (`none` models having already hit `EOF`): returns the run, the
first character that stopped it (the C code's `file_ch` afterwards) and the
unread rest of the stream. -/
def readRun (p : Char → Bool) : Option Char → List Char →
    List Char × Option Char × List Char
  | none, s => ([], none, s)
  | some c, [] => if p c then ([c], none, []) else ([], some c, [])
  | some c, x :: s =>
    if p c then
      let r := readRun p (some x) s
      (c :: r.1, r.2)
    else ([], some c, x :: s)

/-- C `atoi` on a digit string (the parsed `remove` count); the C code leaves
the `calloc`ed 0 in place when the digit run is empty, and `atoi ""` is 0 as
well. -/
def natOfDigits (ds : List Char) : Nat :=
  ds.foldl (fun n d => n * 10 + (d.toNat - 48)) 0

/-- Does `s` start with `pat`?  (The head comparison of C `strstr`.) -/
def startsWith0 : List Char → List Char → Bool
  | [], _ => true
  | _ :: _, [] => false
  | p :: ps, c :: cs => p = c && startsWith0 ps cs

/-- C `strstr(s, pat) != NULL`: some suffix of `s` starts with `pat`. -/
def strstrB (pat : List Char) : List Char → Bool
  | [] => startsWith0 pat []
  | c :: cs => startsWith0 pat (c :: cs) || strstrB pat cs

/-- The substring `":end0.)"` whose presence in an assembled rule label marks
the end-of-rules pseudo-rule (C line 225). -/
def endMarker : List Char := [':', 'e', 'n', 'd', '0', '.', ')']

/-- The comment-skip loop at the end of a rule entry (C lines 248–249):
consume characters through the first newline or NUL.  When the stream ends
first, `fgetc` returns `EOF` forever and the C loop never exits; that
divergence is modelled as `none`. -/
def skipEol : List Char → Option (List Char)
  | [] => none
  | c :: s => if c = '\n' ∨ c = nulChar then some s else skipEol s

/-- How a compilation run can fail: a malformed entry (the two
`perror("Invalid rule encountered"); return NULL;` branches), or the
comment-skip loop spinning on `EOF`. -/
inductive LoadErr where
  | grammarError
  | diverge
  deriving DecidableEq, Repr

/-- The character-run phase of one rule entry (C lines 170–210), starting
from the already-read first character `c`: the raw suffix run, the intact
flag (a `'*'` after the suffix run), the digit run, the append run, the
character left in `file_ch` afterwards (the terminator candidate; `none` at
`EOF`) and the unread rest of the stream. -/
def readEntry (c : Char) (s : List Char) :
    List Char × Bool × List Char × List Char × Option Char × List Char :=
  let p1 := readRun isAlphaC (some c) s
  let p2 := if p1.2.1 = some '*' then (true, getc p1.2.2)
            else (false, p1.2.1, p1.2.2)
  let p3 := readRun isDigitC p2.2.1 p2.2.2
  let p4 := readRun isAlphaC p3.2.1 p3.2.2
  (p1.1, p2.1, p3.1, p4.1, p4.2.1, p4.2.2)

/-- Parse one rule entry (C lines 157–249) whose first character `c` has
already been read; `line` is the already-incremented line counter used in the
label.  Returns `.ok none` when the assembled label contains the end-of-rules
marker, otherwise `.ok (some (rule, rest))` with the stream left after the
comment skip.  The label is assembled exactly as the C code does: `"(%d:"`,
then every raw character of the entry as it is read, then `')'`. -/
def parseEntry (line : Nat) (c : Char) (s : List Char) :
    Except LoadErr (Option (Rule × List Char)) :=
  if 97 ≤ c.toNat ∧ c.toNat ≤ 122 then
    match readEntry c s with
    | (run, star, ds, app, topt, s4) =>
      match topt with
      | none => .error .grammarError
      | some t =>
        if t = '>' ∨ t = '.' then
          let id := '(' :: (Nat.repr line).data ++ [':'] ++ run ++
            (if star then ['*'] else []) ++ ds ++ app ++ [t, ')']
          if strstrB endMarker id then .ok none
          else
            let r : Rule :=
              { intact := star, remove := natOfDigits ds, restem := t = '>',
                suffix := ReverseString run, append := app, id := id }
            match skipEol s4 with
            | none => .error .diverge
            | some rest => .ok (some (r, rest))
        else .error .grammarError
  else .error .grammarError

/-- The `while (file_ch = fgetc(rulefile))` loop of `LoadRules` (C lines
152–250).  A NUL character at the loop head makes the condition false and
returns the table built so far; at `EOF` the loop body runs with
`file_ch = EOF`, which is not a space, and `rule_idx = EOF - 97 < 0` aborts
with the grammar error.  Each iteration consumes at least the one character
it read, so any `fuel` above the stream length is enough; `fuel = 0` is
marked as divergence but is unreachable from `LoadRules`. -/
def loadLoop : Nat → Nat → RuleTable → List Char → Except LoadErr RuleTable
  | 0, _, _, _ => .error .diverge
  | _ + 1, _, _, [] => .error .grammarError
  | fuel + 1, line, rules, c :: s =>
    if c = nulChar then .ok rules
    else if isSpaceC c then loadLoop fuel line rules s
    else
      match parseEntry (line + 1) c s with
      | .error e => .error e
      | .ok none => .ok rules
      | .ok (some (r, rest)) => loadLoop fuel (line + 1) (addRule rules c r) rest

/-- C `LoadRules` (lines 128–253) on an already-opened stream: run the entry
loop on the empty table with the line counter at 0. -/
def LoadRules (s : List Char) : Except LoadErr RuleTable :=
  loadLoop (s.length + 1) 0 emptyTable s

/-! ## Basic lemmas about the stemming engine -/

/-- The stem buffer discipline: `ApplyRule` never produces more than 254
characters. -/
lemma length_applyRule_le (r : Rule) (stem : List Char) :
    (ApplyRule r stem).length ≤ 254 := by
  have h1 : (stem.take 254).length ≤ 254 := List.length_take_le ..
  have h2 : (if r.remove ≠ 0 then
      (stem.take 254).take ((stem.take 254).length - r.remove)
      else stem.take 254).length ≤ 254 := by
    split
    · exact le_trans (List.length_take_le ..) (by omega)
    · exact h1
  simp only [ApplyRule, List.length_append]
  have h3 := List.length_take_le
    (254 - (if r.remove ≠ 0 then
      (stem.take 254).take ((stem.take 254).length - r.remove)
      else stem.take 254).length) r.append
  omega

/-- Re-truncating an `ApplyRule` result is a no-op (the `strncpy` back into
the stem buffer). -/
lemma take_applyRule (r : Rule) (stem : List Char) :
    (ApplyRule r stem).take 254 = ApplyRule r stem :=
  List.take_of_length_le (length_applyRule_le r stem)

/-- A matching rule's suffix fits in the stem. -/
lemma ruleMatches_suffix_le {r : Rule} {stem : List Char} {intact : Bool}
    (h : RuleMatches r stem intact = true) : r.suffix.length ≤ stem.length := by
  unfold RuleMatches at h
  split at h
  · exact absurd h (by simp)
  split at h
  · exact absurd h (by simp)
  rename_i h1 h2
  simp only [decide_eq_true_eq] at h2
  omega

/-- A matching rule's suffix is literally the stem's tail. -/
lemma ruleMatches_suffix_eq {r : Rule} {stem : List Char} {intact : Bool}
    (h : RuleMatches r stem intact = true) :
    r.suffix = stem.drop (stem.length - r.suffix.length) := by
  unfold RuleMatches at h
  split at h
  · exact absurd h (by simp)
  split at h
  · exact absurd h (by simp)
  split at h
  · rename_i h3
    simpa using h3
  · exact absurd h (by simp)

/-- Inversion for the bucket scan: a winner was a member of the bucket, it
matched, its candidate is its `ApplyRule` result, and the candidate passed
`IsValid`. -/
lemma firstWin_eq_some {bucket : List Rule} {stem : List Char} {intact : Bool}
    {r : Rule} {cand : List Char}
    (h : firstWin bucket stem intact = some (r, cand)) :
    r ∈ bucket ∧ RuleMatches r stem intact = true ∧
      cand = ApplyRule r stem ∧ IsValid cand = true := by
  induction bucket with
  | nil => simp [firstWin] at h
  | cons r0 rest ih =>
    simp only [firstWin] at h
    split at h
    · split at h
      · rename_i hm hv
        simp only [Option.some.injEq, Prod.mk.injEq] at h
        obtain ⟨rfl, rfl⟩ := h
        exact ⟨List.mem_cons_self .., hm, rfl, hv⟩
      · obtain ⟨hmem, h2, h3, h4⟩ := ih h
        exact ⟨List.mem_cons_of_mem _ hmem, h2, h3, h4⟩
    · obtain ⟨hmem, h2, h3, h4⟩ := ih h
      exact ⟨List.mem_cons_of_mem _ hmem, h2, h3, h4⟩

/-- Rules that either fail to match or whose candidate fails `IsValid` are
skipped by the bucket scan. -/
lemma firstWin_append_losers {pre : List Rule} {stem : List Char}
    {intact : Bool}
    (hpre : ∀ r' ∈ pre, RuleMatches r' stem intact = false ∨
      IsValid (ApplyRule r' stem) = false) (rest : List Rule) :
    firstWin (pre ++ rest) stem intact = firstWin rest stem intact := by
  induction pre with
  | nil => rfl
  | cons r0 pre' ih =>
    have h0 := hpre r0 (List.mem_cons_self ..)
    have ih' := ih fun r' hr' => hpre r' (List.mem_cons_of_mem _ hr')
    rw [List.cons_append]
    simp only [firstWin]
    rcases h0 with h0 | h0
    · simp only [h0, Bool.false_eq_true, if_false]
      exact ih'
    · by_cases hm : RuleMatches r0 stem intact = true
      · simp only [hm, if_true, h0, Bool.false_eq_true, if_false]
        exact ih'
      · simp only [Bool.not_eq_true] at hm
        simp only [hm, Bool.false_eq_true, if_false]
        exact ih'

/-- A matching rule with an acceptable candidate at the head of the scan wins
immediately; the rest of the bucket is not consulted. -/
lemma firstWin_cons_winner {r : Rule} {stem : List Char} {intact : Bool}
    (hm : RuleMatches r stem intact = true)
    (hv : IsValid (ApplyRule r stem) = true) (rest : List Rule) :
    firstWin (r :: rest) stem intact = some (r, ApplyRule r stem) := by
  simp only [firstWin, hm, hv, if_true]

/-! ## `ReverseString` reverses -/

/-- Setting at offset `k` past a prefix updates only the second part. -/
lemma set_append_len {α : Type} (l₁ l₂ : List α) (k : Nat) (v : α) :
    (l₁ ++ l₂).set (l₁.length + k) v = l₁ ++ l₂.set k v := by
  induction l₁ with
  | nil => simp
  | cons x l₁ _ => simp [List.cons_append, Nat.succ_add]

/-- Reading at offset `k` past a prefix reads from the second part. -/
lemma getD_append_len {α : Type} (l₁ l₂ : List α) (k : Nat) (d : α) :
    (l₁ ++ l₂).getD (l₁.length + k) d = l₂.getD k d := by
  induction l₁ with
  | nil => simp
  | cons x l₁ ih => simpa [List.cons_append, Nat.succ_add] using ih

/-- One iteration of the `ReverseString` loop exchanges the two ends of the
not-yet-reversed middle segment (stated with the two touched indices in
`prefix-length + offset` form). -/
lemma swap_ends (pre : List Char) :
    ∀ (m2 post : List Char) (a b : Char),
    (((pre ++ (a :: m2 ++ [b]) ++ post).set (pre.length + (m2.length + 1))
        ((pre ++ (a :: m2 ++ [b]) ++ post).getD (pre.length + 0) nulChar)).set
      (pre.length + 0)
      ((pre ++ (a :: m2 ++ [b]) ++ post).getD
        (pre.length + (m2.length + 1)) nulChar))
    = pre ++ (b :: m2 ++ [a]) ++ post := by
  induction pre with
  | nil =>
    intro m2 post a b
    have hregroup : ([] : List Char) ++ (a :: m2 ++ [b]) ++ post
        = a :: (m2 ++ ([b] ++ post)) := by simp
    rw [hregroup]
    simp only [List.length_nil]
    have hgetB : (a :: (m2 ++ ([b] ++ post))).getD (0 + (m2.length + 1)) nulChar
        = b := by
      rw [Nat.zero_add, List.getD_cons_succ]
      have := getD_append_len m2 ([b] ++ post) 0 nulChar
      simpa using this
    have hsetB : (a :: (m2 ++ ([b] ++ post))).set (0 + (m2.length + 1))
        ((a :: (m2 ++ ([b] ++ post))).getD (0 + 0) nulChar)
        = a :: (m2 ++ ([a] ++ post)) := by
      have h0 : (a :: (m2 ++ ([b] ++ post))).getD (0 + 0) nulChar = a := rfl
      rw [h0, Nat.zero_add]
      show (a :: (m2 ++ ([b] ++ post))).set (m2.length + 1) a = _
      rw [List.set_cons_succ]
      have h := set_append_len m2 ([b] ++ post) 0 a
      simp only [List.cons_append, List.nil_append, List.set_cons_zero,
        Nat.add_zero] at h
      simp only [List.singleton_append]
      rw [h]
    rw [hsetB, hgetB]
    simp
  | cons x pre ih =>
    intro m2 post a b
    have h1 : (x :: pre).length + (m2.length + 1)
        = (pre.length + (m2.length + 1)) + 1 := by simp; omega
    have h2 : (x :: pre).length + 0 = (pre.length + 0) + 1 := by simp
    rw [List.cons_append, List.cons_append, h1, h2, List.getD_cons_succ,
      List.getD_cons_succ, List.set_cons_succ, List.set_cons_succ]
    have := ih m2 post a b
    simp only [Nat.add_zero] at this ⊢
    rw [this]
    simp

/-- The loop invariant of `ReverseString`: with `i` swaps already done (the
already-exchanged halves are `pre` and `post`) and `f` swaps to go, the run
reverses exactly the middle segment. -/
lemma revFor_mid : ∀ (f : Nat) (pre mid post : List Char),
    pre.length = post.length →
    (mid.length = 2 * f ∨ mid.length = 2 * f + 1) →
    revFor ((pre ++ mid ++ post).length - 1) pre.length f (pre ++ mid ++ post)
      = pre ++ mid.reverse ++ post := by
  intro f
  induction f with
  | zero =>
    intro pre mid post _ hm
    have hrev : mid.reverse = mid := by
      rcases mid with _ | ⟨a, _ | ⟨b, m⟩⟩
      · rfl
      · rfl
      · simp at hm
    rw [revFor, hrev]
  | succ f ih =>
    intro pre mid post hlen hm
    obtain ⟨a, mid1, rfl⟩ : ∃ a mid1, mid = a :: mid1 := by
      rcases mid with _ | ⟨a, mid1⟩
      · simp at hm
      · exact ⟨a, mid1, rfl⟩
    obtain ⟨m2, b, rfl⟩ : ∃ m2 b, mid1 = m2 ++ [b] := by
      rcases mid1.eq_nil_or_concat with h | ⟨L, x, h⟩
      · subst h
        simp only [List.length_cons, List.length_nil] at hm
        omega
      · exact ⟨L, x, by rw [h]; simp⟩
    have hm2 : m2.length = 2 * f ∨ m2.length = 2 * f + 1 := by
      simp only [List.length_cons, List.length_append, List.length_nil] at hm
      omega
    simp only [revFor]
    have hswap := swap_ends pre m2 post a b
    simp only [Nat.add_zero, List.cons_append] at hswap
    have hsub : (pre ++ (a :: (m2 ++ [b])) ++ post).length - 1 - pre.length
        = pre.length + (m2.length + 1) := by
      simp only [List.length_append, List.length_cons, List.length_nil]
      omega
    rw [hsub, hswap]
    have hre : pre ++ (b :: (m2 ++ [a])) ++ post
        = (pre ++ [b]) ++ m2 ++ (a :: post) := by simp
    have hlast : (pre ++ (a :: (m2 ++ [b])) ++ post).length - 1
        = ((pre ++ [b]) ++ m2 ++ (a :: post)).length - 1 := by
      simp only [List.length_append, List.length_cons, List.length_nil]
      omega
    have hplen : pre.length + 1 = (pre ++ [b]).length := by simp
    rw [hre, hlast, hplen,
      ih (pre ++ [b]) m2 (a :: post) (by simp [hlen]) hm2]
    simp

/-- `ReverseString` agrees with `List.reverse`. -/
lemma reverseString_eq_reverse (l : List Char) : ReverseString l = l.reverse := by
  have h := revFor_mid ((l.length - 1 + 1) / 2) [] l []
    (by simp) (by omega)
  simp only [List.nil_append, List.append_nil, List.length_nil] at h
  unfold ReverseString
  exact h

/-! ## Lemmas about the character-run readers -/

/-- Every character collected by `readRun` satisfies the predicate. -/
lemma readRun_mem {p : Char → Bool} : ∀ (s : List Char) (oc : Option Char),
    ∀ x ∈ (readRun p oc s).1, p x = true := by
  intro s
  induction s with
  | nil =>
    intro oc x hx
    match oc with
    | none => simp [readRun] at hx
    | some c =>
      by_cases hc : p c
      · simp only [readRun, hc, if_true, List.mem_singleton] at hx
        subst hx; exact hc
      · simp [readRun, hc] at hx
  | cons y s ih =>
    intro oc x hx
    match oc with
    | none => simp [readRun] at hx
    | some c =>
      by_cases hc : p c
      · simp only [readRun, hc, if_true, List.mem_cons] at hx
        rcases hx with rfl | hx
        · exact hc
        · exact ih (some y) x hx
      · simp [readRun, hc] at hx

/-- A character failing the predicate stops the run immediately. -/
lemma readRun_stop {p : Char → Bool} {y : Char} (hy : p y = false)
    (s : List Char) : readRun p (some y) s = ([], some y, s) := by
  cases s <;> simp [readRun, hy]

/-- A run whose first character passes the predicate starts with it. -/
lemma readRun_head {p : Char → Bool} {c : Char} (hc : p c = true)
    (s : List Char) : ∃ tl, (readRun p (some c) s).1 = c :: tl := by
  cases s with
  | nil => exact ⟨[], by simp [readRun, hc]⟩
  | cons x s' => exact ⟨(readRun p (some x) s').1, by simp [readRun, hc]⟩

/-- Reading a maximal run: when the stream starts with characters all
satisfying `p` followed by one that does not, `readRun` returns exactly that
run, stops on the offending character, and leaves the rest unread. -/
lemma readRun_exact {p : Char → Bool} :
    ∀ (run : List Char) (c y : Char) (rest : List Char),
    (∀ x ∈ c :: run, p x = true) → p y = false →
    readRun p (some c) (run ++ y :: rest) = (c :: run, some y, rest) := by
  intro run
  induction run with
  | nil =>
    intro c y rest hall hy
    have hc : p c = true := hall c (List.mem_cons_self ..)
    rw [List.nil_append, readRun]
    simp [hc, readRun_stop hy]
  | cons r1 run' ih =>
    intro c y rest hall hy
    have hc : p c = true := hall c (List.mem_cons_self ..)
    have hall' : ∀ x ∈ r1 :: run', p x = true := fun x hx =>
      hall x (List.mem_cons_of_mem _ hx)
    rw [List.cons_append, readRun]
    simp only [hc, if_true, ih r1 y rest hall' hy]

/-- Reading a run that exhausts the stream: `readRun` returns the whole
stream as the run and reports `EOF`. -/
lemma readRun_exhaust {p : Char → Bool} :
    ∀ (run : List Char) (c : Char),
    (∀ x ∈ c :: run, p x = true) →
    readRun p (some c) run = (c :: run, none, []) := by
  intro run
  induction run with
  | nil =>
    intro c hall
    simp [readRun, hall c (List.mem_cons_self ..)]
  | cons r1 run' ih =>
    intro c hall
    rw [readRun]
    simp only [hall c (List.mem_cons_self ..), if_true,
      ih r1 fun x hx => hall x (List.mem_cons_of_mem _ hx)]

/-- A list starts with itself followed by anything. -/
lemma startsWith0_append (pat ys : List Char) :
    startsWith0 pat (pat ++ ys) = true := by
  induction pat with
  | nil => rfl
  | cons p ps ih => simp [startsWith0, ih]

/-- A string that starts with the pattern contains it. -/
lemma strstrB_of_starts {pat s : List Char} (h : startsWith0 pat s = true) :
    strstrB pat s = true := by
  cases s <;> simp [strstrB, h]

/-- `strstr` finds a pattern sitting at the end of the string. -/
lemma strstrB_append (pat : List Char) :
    ∀ xs : List Char, strstrB pat (xs ++ pat) = true := by
  intro xs
  induction xs with
  | nil =>
    rw [List.nil_append]
    exact strstrB_of_starts (by simpa using startsWith0_append pat [])
  | cons x xs ih =>
    rw [List.cons_append, strstrB]
    simp [ih]

/-! ## The compiled-suffix invariant -/

/-- What `LoadRules` actually guarantees about a compiled suffix: non-empty,
alphabetic, and ending in the lowercase letter that keyed the bucket (the
first raw character of the entry).  Characters other than the last one are
only known to be alphabetic, because the suffix run is read with `isalpha`,
which also accepts uppercase letters. -/
def SuffixOk (r : Rule) : Prop :=
  r.suffix ≠ [] ∧ (∀ x ∈ r.suffix, isAlphaC x = true) ∧
    ∃ y, r.suffix.getLast? = some y ∧ 97 ≤ y.toNat ∧ y.toNat ≤ 122

/-- Every rule of every bucket satisfies `SuffixOk`. -/
def TableOk (T : RuleTable) : Prop :=
  ∀ c r, r ∈ T c → SuffixOk r

/-- The empty table vacuously satisfies the invariant. -/
lemma tableOk_empty : TableOk emptyTable := by
  intro c r hr
  simp [emptyTable] at hr

/-- Appending an invariant-respecting rule preserves the invariant. -/
lemma tableOk_addRule {T : RuleTable} {key : Char} {r : Rule}
    (hT : TableOk T) (hr : SuffixOk r) : TableOk (addRule T key r) := by
  intro c r' hmem
  simp only [addRule] at hmem
  split at hmem
  · rcases List.mem_append.mp hmem with h | h
    · exact hT c r' h
    · rw [List.mem_singleton.mp h]
      exact hr
  · exact hT c r' hmem

/-- Inversion for a successfully parsed entry: the first character was a
lowercase letter and the stored suffix is the reversal of the raw
alphabetic run starting with it. -/
lemma parseEntry_inv {line : Nat} {c : Char} {s : List Char} {r : Rule}
    {rest : List Char} (h : parseEntry line c s = .ok (some (r, rest))) :
    (97 ≤ c.toNat ∧ c.toNat ≤ 122) ∧
      r.suffix = ReverseString (readRun isAlphaC (some c) s).1 := by
  simp only [parseEntry] at h
  split at h
  case isFalse => exact Except.noConfusion h
  rename_i hc
  refine ⟨hc, ?_⟩
  repeat' split at h
  all_goals first
    | exact Except.noConfusion h
    | (exfalso
       simp only [Except.ok.injEq] at h
       exact Option.noConfusion h)
    | (simp only [Except.ok.injEq, Option.some.injEq, Prod.mk.injEq] at h
       rw [← h.1]
       rfl)

/-- A lowercase letter passes `isalpha`. -/
lemma isAlphaC_of_lower {c : Char} (h1 : 97 ≤ c.toNat) (h2 : c.toNat ≤ 122) :
    isAlphaC c = true := by
  simp only [isAlphaC, Bool.or_eq_true, Bool.and_eq_true, decide_eq_true_eq]
  exact Or.inl ⟨h1, h2⟩

/-- A successfully parsed entry's rule satisfies the suffix invariant. -/
lemma parseEntry_suffixOk {line : Nat} {c : Char} {s : List Char} {r : Rule}
    {rest : List Char} (h : parseEntry line c s = .ok (some (r, rest))) :
    SuffixOk r := by
  obtain ⟨⟨hc1, hc2⟩, hsuf⟩ := parseEntry_inv h
  have hca : isAlphaC c = true := isAlphaC_of_lower hc1 hc2
  obtain ⟨tl, htl⟩ := readRun_head hca s
  rw [reverseString_eq_reverse, htl] at hsuf
  refine ⟨?_, ?_, c, ?_, hc1, hc2⟩
  · rw [hsuf]
    simp
  · intro x hx
    rw [hsuf, List.mem_reverse] at hx
    exact readRun_mem s (some c) x (htl ▸ hx)
  · rw [hsuf, List.getLast?_reverse]
    rfl

/-- The compiler loop preserves the suffix invariant. -/
lemma loadLoop_tableOk : ∀ (fuel line : Nat) (T : RuleTable) (s : List Char)
    (T' : RuleTable), TableOk T → loadLoop fuel line T s = .ok T' →
    TableOk T' := by
  intro fuel
  induction fuel with
  | zero =>
    intro line T s T' _ heq
    simp [loadLoop] at heq
  | succ fuel ih =>
    intro line T s T' hT heq
    cases s with
    | nil => simp [loadLoop] at heq
    | cons c s' =>
      rw [loadLoop] at heq
      split at heq
      · simp only [Except.ok.injEq] at heq
        exact heq ▸ hT
      split at heq
      · exact ih _ _ _ _ hT heq
      split at heq
      · simp at heq
      · rename_i hpe
        simp only [Except.ok.injEq] at heq
        exact heq ▸ hT
      · rename_i r rest hpe
        exact ih _ _ _ _ (tableOk_addRule hT (parseEntry_suffixOk hpe)) heq

/-! ## Termination of the stemming loop for shrinking tables -/

/-- A table whose continuing rules all strictly shrink the stem: such a rule
removes no more than its own suffix (which must have matched) and strictly
more than it appends. -/
def ShrinkingTable (T : RuleTable) : Prop :=
  ∀ c r, r ∈ T c → r.restem = true →
    r.remove ≤ r.suffix.length ∧ r.append.length < r.remove

/-- Applying a shrinking rule to a stem it matched strictly shortens it. -/
lemma applyRule_shrink {r : Rule} {stem : List Char}
    (hlen : stem.length ≤ 254) (hsuf : r.suffix.length ≤ stem.length)
    (h1 : r.remove ≤ r.suffix.length) (h2 : r.append.length < r.remove) :
    (ApplyRule r stem).length < stem.length := by
  have ht : stem.take 254 = stem := List.take_of_length_le hlen
  have hr0 : r.remove ≠ 0 := by omega
  simp only [ApplyRule, ht, if_pos hr0, List.length_append]
  have hmid : (stem.take (stem.length - r.remove)).length
      = stem.length - r.remove := by
    rw [List.length_take]
    omega
  have happ : (r.append.take
      (254 - (stem.take (stem.length - r.remove)).length)).length
      ≤ r.append.length := by
    rw [List.length_take]
    omega
  omega

/-- For a shrinking table, fuel one more than the stem length always
suffices: the loop terminates. -/
lemma stemIter_terminates {T : RuleTable} (hT : ShrinkingTable T) :
    ∀ (n : Nat) (stem : List Char) (intact : Bool) (dbg : List Char),
    stem.length ≤ n → stem.length ≤ 254 →
    (stemIter T (n + 1) stem intact dbg).isSome := by
  intro n
  induction n with
  | zero =>
    intro stem intact dbg hn _
    have hnil : stem = [] := List.length_eq_zero.mp (Nat.le_zero.mp hn)
    subst hnil
    simp [stemIter, bucketFor, firstWin]
  | succ n ih =>
    intro stem intact dbg hn h254
    rw [stemIter]
    cases hfw : firstWin (bucketFor T stem) stem intact with
    | none => simp
    | some rc =>
      obtain ⟨r, cand⟩ := rc
      obtain ⟨hmem, hm, hcand, _⟩ := firstWin_eq_some hfw
      cases hl : stem.getLast? with
      | none => simp [bucketFor, hl] at hmem
      | some c =>
        have hrT : r ∈ T c := by simpa [bucketFor, hl] using hmem
        simp only
        cases hres : r.restem with
        | false => simp
        | true =>
          obtain ⟨h1, h2⟩ := hT c r hrT hres
          have hsuf := ruleMatches_suffix_le hm
          have hlt : cand.length < stem.length := by
            rw [hcand]
            exact applyRule_shrink h254 hsuf h1 h2
          have hc254 : cand.length ≤ 254 := by
            rw [hcand]
            exact length_applyRule_le ..
          have htake : cand.take 254 = cand := List.take_of_length_le hc254
          rw [htake]
          exact ih cand false _ (by omega) hc254

/-! ## The `IsValid` loop invariant -/

/-- `IsValid` rejects the empty string. -/
lemma ne_nil_of_isValid {stem : List Char} (h : IsValid stem = true) :
    stem ≠ [] := by
  intro hnil
  subst hnil
  simp [IsValid, nulChar] at h

/-- Acceptability is preserved by the stemming loop: starting from an
acceptable stem, any stem the loop returns is acceptable (every replacement
was gated by `IsValid`). -/
lemma stemIter_isValid {T : RuleTable} :
    ∀ (fuel : Nat) (stem : List Char) (intact : Bool) (dbg : List Char)
    (out : List Char × List Char), IsValid stem = true →
    stemIter T fuel stem intact dbg = some out → IsValid out.1 = true := by
  intro fuel
  induction fuel with
  | zero =>
    intro stem intact dbg out _ heq
    simp [stemIter] at heq
  | succ fuel ih =>
    intro stem intact dbg out hstem heq
    rw [stemIter] at heq
    cases hfw : firstWin (bucketFor T stem) stem intact with
    | none =>
      rw [hfw] at heq
      simp only [Option.some.injEq] at heq
      rw [← heq]
      exact hstem
    | some rc =>
      obtain ⟨r, cand⟩ := rc
      obtain ⟨_, _, hcand, hvalid⟩ := firstWin_eq_some hfw
      rw [hfw] at heq
      have htake : cand.take 254 = cand := by
        rw [hcand]
        exact take_applyRule ..
      simp only [htake] at heq
      split at heq
      · exact ih cand false _ out hvalid heq
      · simp only [Option.some.injEq] at heq
        rw [← heq]
        exact hvalid

/-! ## Concrete instances used by the claim theorems -/

/-- `List.contains` decides membership. -/
lemma contains_iff {l : List Char} {a : Char} : l.contains a = true ↔ a ∈ l :=
  List.elem_iff

/-- A 255-character vowel-free word: one character longer than the stem
buffer's payload. -/
def W255 : List Char := List.replicate 255 'b'

/-- The 254-character truncation of `W255`. -/
def W254 : List Char := List.replicate 254 'b'

/-- A word of 254 consonants followed by a vowel: acceptable, but its
254-character truncation is not. -/
def W255a : List Char := List.replicate 254 'b' ++ ['a']

/-- A do-nothing rule: remove 0, append nothing. -/
def r0 : Rule :=
  { intact := false, remove := 0, restem := false, suffix := [], append := [],
    id := [] }

/-- A terminal rule stripping one trailing `a`. -/
def r1 : Rule :=
  { intact := false, remove := 1, restem := false, suffix := ['a'],
    append := [], id := [] }

/-- A one-rule table holding `r1` in bucket `a`. -/
def T1 : RuleTable := addRule emptyTable 'a' r1

/-- The rule compiled from the grammar entry `a1a>`: strip one trailing `a`,
append `a`, continue — it rewrites a stem to itself and restems forever. -/
def rBad : Rule :=
  { intact := false, remove := 1, restem := true, suffix := ['a'],
    append := ['a'],
    id := ['(', '1', ':', 'a', '1', 'a', '>', ')'] }

/-- The table compiled from `a1a>\nend0.`. -/
def TBad : RuleTable := addRule emptyTable 'a' rBad

/-- The grammar stream `a1a>\nend0.`. -/
def sBad : List Char :=
  ['a', '1', 'a', '>', '\n', 'e', 'n', 'd', '0', '.']

/-- The grammar stream `gni2.\nend0.`: one entry for suffix `ing` (written
reversed), remove 2, stop. -/
def sIng : List Char :=
  ['g', 'n', 'i', '2', '.', '\n', 'e', 'n', 'd', '0', '.']

/-- The rule compiled from the `gni2.` entry: suffix stored un-reversed as
`ing`. -/
def rIng : Rule :=
  { intact := false, remove := 2, restem := false, suffix := ['i', 'n', 'g'],
    append := [],
    id := ['(', '1', ':', 'g', 'n', 'i', '2', '.', ')'] }

/-- The grammar stream `aBc0.\nend0.`: the suffix run contains an uppercase
letter, which `isalpha` accepts. -/
def sUpper : List Char :=
  ['a', 'B', 'c', '0', '.', '\n', 'e', 'n', 'd', '0', '.']

/-- The grammar stream `ba2.\nend0.`. -/
def sGood : List Char :=
  ['b', 'a', '2', '.', '\n', 'e', 'n', 'd', '0', '.']

/-- The rule compiled from the `ba2.` entry. -/
def rGood : Rule :=
  { intact := false, remove := 2, restem := false, suffix := ['a', 'b'],
    append := [],
    id := ['(', '1', ':', 'b', 'a', '2', '.', ')'] }

/-- The table compiled from `sGood`. -/
def TGood : RuleTable := addRule emptyTable 'b' rGood

/-! ## The claims -/

/-- C2: `is_acceptable(candidate)` is true for a candidate starting with a
vowel `a,e,i,o,u` iff its length is at least 2, and for any other candidate
iff its length is at least 3 and it contains one of `a,e,i,o,u,y` anywhere.
(It is a pure function by construction: `IsValid` is a plain Lean function
over its argument, exactly like the side-effect-free C original.) -/
theorem claim2_acceptability_characterization (s : List Char) :
    IsValid s = true ↔
      (match s with
       | [] => False
       | c :: _ =>
         if c = 'a' ∨ c = 'e' ∨ c = 'i' ∨ c = 'o' ∨ c = 'u' then
           2 ≤ s.length
         else
           3 ≤ s.length ∧ ∃ x ∈ s, x = 'a' ∨ x = 'e' ∨ x = 'i' ∨ x = 'o' ∨
             x = 'u' ∨ x = 'y') := by
  cases s with
  | nil => decide
  | cons c cs =>
    have hmatch : (match c :: cs with
       | [] => False
       | c :: _ =>
         if c = 'a' ∨ c = 'e' ∨ c = 'i' ∨ c = 'o' ∨ c = 'u' then
           2 ≤ (c :: cs).length
         else
           3 ≤ (c :: cs).length ∧ ∃ x ∈ c :: cs, x = 'a' ∨ x = 'e' ∨
             x = 'i' ∨ x = 'o' ∨ x = 'u' ∨ x = 'y') =
      (if c = 'a' ∨ c = 'e' ∨ c = 'i' ∨ c = 'o' ∨ c = 'u' then
           2 ≤ (c :: cs).length
         else
           3 ≤ (c :: cs).length ∧ ∃ x ∈ c :: cs, x = 'a' ∨ x = 'e' ∨
             x = 'i' ∨ x = 'o' ∨ x = 'u' ∨ x = 'y') := rfl
    rw [hmatch]
    by_cases hv : c = 'a' ∨ c = 'e' ∨ c = 'i' ∨ c = 'o' ∨ c = 'u'
    · rw [if_pos hv]
      have hb : ((c = 'a' : Bool) || c = 'e' || c = 'i' || c = 'o' ||
          c = 'u') = true := by
        simp only [Bool.or_eq_true, decide_eq_true_eq]
        tauto
      simp only [IsValid, List.headD_cons, hb, if_true, decide_eq_true_eq]
    · rw [if_neg hv]
      have hb : ((c = 'a' : Bool) || c = 'e' || c = 'i' || c = 'o' ||
          c = 'u') = false := by
        rw [Bool.eq_false_iff]
        intro hcontra
        simp only [Bool.or_eq_true, decide_eq_true_eq] at hcontra
        tauto
      simp only [IsValid, List.headD_cons, hb, Bool.false_eq_true, if_false,
        Bool.and_eq_true, decide_eq_true_eq, Bool.or_eq_true, contains_iff]
      constructor
      · rintro ⟨h3, h⟩
        refine ⟨h3, ?_⟩
        rcases h with ((((h | h) | h) | h) | h) | h <;> exact ⟨_, h, by tauto⟩
      · rintro ⟨h3, x, hx, hc⟩
        refine ⟨h3, ?_⟩
        rcases hc with rfl | rfl | rfl | rfl | rfl | rfl <;> tauto

set_option maxRecDepth 4000 in
/-- C3 counterexample: for the 255-consonant word `W255`, `is_acceptable` is
false, yet `StemWord` returns the 254-character truncation, not the word
unchanged — the entry guard operates on the truncated stem buffer. -/
theorem claim3_counterexample :
    IsValid W255 = false ∧
      StemWord 1 emptyTable W255 = some (W254, []) ∧ W254 ≠ W255 := by
  refine ⟨by decide, by decide, by decide⟩

/-- C3 (amended with the stem-buffer bound): for every word of length at
most 254 with `is_acceptable(w)` false, `StemWord` returns `w` unchanged
with an empty trace, for every rule table and every fuel — in particular no
rule is ever consulted (the result does not depend on `rules`), and the
debug trace is empty. -/
theorem claim3_unacceptable_guard (fuel : Nat) (rules : RuleTable)
    (w : List Char) (hlen : w.length ≤ 254) (hv : IsValid w = false) :
    StemWord fuel rules w = some (w, []) := by
  simp [StemWord, List.take_of_length_le hlen, hv]

/-- C3 witness: the vowel-free two-letter word `bc` is returned unchanged
with an empty trace even with zero fuel and the empty table. -/
theorem claim3_witness :
    StemWord 0 emptyTable ['b', 'c'] = some (['b', 'c'], []) :=
  claim3_unacceptable_guard 0 emptyTable ['b', 'c'] (by decide) (by decide)

set_option maxRecDepth 4000 in
/-- C4 counterexample: for the 255-character stem `W255` and the do-nothing
rule `r0` (remove 0, append nothing), the claimed formula yields the stem
itself, but `ApplyRule` truncates to the 254-character buffer payload. -/
theorem claim4_counterexample :
    ApplyRule r0 W255 ≠ W255 ∧ ApplyRule r0 W255 = W254 := by
  refine ⟨by decide, by decide⟩

/-- C4 (amended with the stem-buffer bound): the candidate equals the
current stem truncated to 254 characters, with
`min(remove_count, len)` trailing characters removed (`len` the truncated
length — so removal is clamped and never drives the length negative) and
`append` then appended, the result again truncated to 254 characters. -/
theorem claim4_apply_rule_formula (r : Rule) (stem : List Char) :
    ApplyRule r stem =
      ((stem.take 254).take
          ((stem.take 254).length - min r.remove (stem.take 254).length)
        ++ r.append).take 254 := by
  have hns : (stem.take 254).length ≤ 254 := List.length_take_le ..
  have hnr : (if r.remove ≠ 0 then
        (stem.take 254).take ((stem.take 254).length - r.remove)
        else stem.take 254)
      = (stem.take 254).take
          ((stem.take 254).length - min r.remove (stem.take 254).length) := by
    split
    · congr 1
      omega
    · rename_i h
      push_neg at h
      rw [h]
      simp [List.take_length]
  have hlen2 : ((stem.take 254).take
      ((stem.take 254).length - min r.remove (stem.take 254).length)).length
      ≤ 254 := by
    rw [List.length_take]
    omega
  simp only [ApplyRule, hnr]
  rw [List.take_append_eq_append_take, List.take_of_length_le hlen2]

/-- C1: in the stemming loop, the first rule of the scanned bucket that
matches and whose candidate passes `is_acceptable` wins: rules before it in
definition order all failed one of the two checks, no rule after it is
consulted (`post` is arbitrary), the current stem becomes the candidate, the
rule's label is appended to the trace, the `intact` flag becomes false in
the continuation, `should_restem` is the rule's `continues` flag, and the
scan breaks back to the outer loop — re-entering it exactly when
`should_restem` holds and terminating with the candidate otherwise. -/
theorem claim1_first_match_wins (rules : RuleTable) (fuel : Nat)
    (stem dbg : List Char) (intact : Bool) (pre post : List Rule) (r : Rule)
    (hb : bucketFor rules stem = pre ++ r :: post)
    (hpre : ∀ r' ∈ pre, RuleMatches r' stem intact = false ∨
      IsValid (ApplyRule r' stem) = false)
    (hm : RuleMatches r stem intact = true)
    (hv : IsValid (ApplyRule r stem) = true) :
    firstWin (bucketFor rules stem) stem intact
        = some (r, ApplyRule r stem) ∧
      stemIter rules (fuel + 1) stem intact dbg =
        (if r.restem then
          stemIter rules fuel (ApplyRule r stem) false
            (dbg ++ (' ' :: '=' :: r.id) ++
              ('=' :: '>' :: ' ' :: ApplyRule r stem))
        else
          some (ApplyRule r stem,
            dbg ++ (' ' :: '=' :: r.id) ++
              ('=' :: '>' :: ' ' :: ApplyRule r stem))) := by
  have hfw : firstWin (bucketFor rules stem) stem intact
      = some (r, ApplyRule r stem) := by
    rw [hb, firstWin_append_losers hpre, firstWin_cons_winner hm hv]
  refine ⟨hfw, ?_⟩
  rw [stemIter, hfw]
  simp only [take_applyRule]

/-- C1 witness: with the one-rule table `T1` (strip a trailing `a`,
terminal) and the stem `aba`, the rule wins immediately and the scan
produces its candidate `ab`. -/
theorem claim1_witness :
    firstWin (bucketFor T1 ['a', 'b', 'a']) ['a', 'b', 'a'] true
      = some (r1, ApplyRule r1 ['a', 'b', 'a']) :=
  (claim1_first_match_wins T1 0 ['a', 'b', 'a'] [] true [] [] r1
    (by decide) (fun r' hr' => absurd hr' (List.not_mem_nil r'))
    (by decide) (by decide)).1

/-- C5 counterexample: stemming is not total for every compiled rule table.
The table `TBad`, genuinely compiled by `LoadRules` from the grammar stream
`a1a>\nend0.`, rewrites the acceptable word `aaa` to itself with the
continue flag set, so the C loop never terminates: no iteration bound makes
`StemWord` return. -/
theorem claim5_counterexample :
    LoadRules sBad = .ok TBad ∧ ¬ StemTerminates TBad ['a', 'a', 'a'] := by
  constructor
  · rfl
  · rintro ⟨fuel, out, heq⟩
    have hnone : ∀ (f : Nat) (intact : Bool) (dbg : List Char),
        stemIter TBad f ['a', 'a', 'a'] intact dbg = none := by
      intro f
      induction f with
      | zero => intro intact dbg; rfl
      | succ f ih =>
        intro intact dbg
        have hstep : stemIter TBad (f + 1) ['a', 'a', 'a'] intact dbg
            = stemIter TBad f ['a', 'a', 'a'] false
              (dbg ++ (' ' :: '=' :: rBad.id) ++
                ('=' :: '>' :: ' ' :: ['a', 'a', 'a'])) := by
          cases intact <;> rfl
        rw [hstep]
        exact ih false _
    rw [show StemWord fuel TBad ['a', 'a', 'a']
        = stemIter TBad fuel ['a', 'a', 'a'] true ['a', 'a', 'a'] from rfl,
      hnone fuel true ['a', 'a', 'a']] at heq
    exact Option.noConfusion heq

/-- C5 (amended for tables whose continuing rules strictly shrink the stem,
i.e. each removes no more than its matched suffix and strictly more than it
appends): stemming is then total — 256 loop iterations always suffice, one
more than the 254-character stem buffer plus the final pass — it never
fails, and it degrades gracefully to returning the unmodified word (of
length at most 254) when the word is unacceptable from the start or no
compiled rule matches on the first pass. -/
theorem claim5_totality (T : RuleTable) (w : List Char)
    (hT : ShrinkingTable T) :
    (∃ out, StemWord 256 T w = some out) ∧
      (w.length ≤ 254 → IsValid w = false → StemWord 256 T w = some (w, [])) ∧
      (w.length ≤ 254 → IsValid w = true →
        firstWin (bucketFor T w) w true = none →
        StemWord 256 T w = some (w, w)) := by
  refine ⟨?_, ?_, ?_⟩
  · cases hvv : IsValid (w.take 254) with
    | false =>
      exact ⟨(w.take 254, []), by simp [StemWord, hvv]⟩
    | true =>
      have hs := stemIter_terminates hT 255 (w.take 254) true (w.take 254)
        (le_trans (List.length_take_le ..) (by omega)) (List.length_take_le ..)
      obtain ⟨out, hout⟩ := Option.isSome_iff_exists.mp hs
      exact ⟨out, by simp [StemWord, hvv, hout]⟩
  · intro hlen hv
    simp [StemWord, List.take_of_length_le hlen, hv]
  · intro hlen hv hfw
    have htk := List.take_of_length_le hlen
    simp only [StemWord, htk, hv, if_true]
    rw [show (256 : Nat) = 255 + 1 from rfl, stemIter, hfw]

/-- C5 witness: the empty table is vacuously shrinking, and the acceptable
word `ab` is stemmed (to itself) within the fuel bound. -/
theorem claim5_witness : ∃ out, StemWord 256 emptyTable ['a', 'b'] = some out :=
  (claim5_totality emptyTable ['a', 'b']
    (fun _ r hr => absurd hr (List.not_mem_nil r))).1

/-- C6: a definition assembling to the end-of-rules label — the entry
`end0.` (raw suffix run `end`, remove digits `0`, terminator `.`), whose
label `"(N:end0.)"` contains the marker `":end0.)"` for every line number —
ends compilation: the loop returns exactly the table built so far and the
entire remaining stream content `rest` is ignored.  The detection happens
inside `parseEntry` by the `strstr` search over the reconstructed label
(`strstrB endMarker id`), not by a special branch of the grammar: the same
entry parser runs to completion and only then is the label examined, as
the second conjunct states at the entry level. -/
theorem claim6_end_pseudo_rule (fuel line : Nat) (rules : RuleTable)
    (rest : List Char) :
    loadLoop (fuel + 1) line rules
        ('e' :: 'n' :: 'd' :: '0' :: '.' :: rest) = .ok rules ∧
      parseEntry line 'e' ('n' :: 'd' :: '0' :: '.' :: rest) = .ok none := by
  have hp : ∀ L : Nat, parseEntry L 'e' ('n' :: 'd' :: '0' :: '.' :: rest)
      = .ok none := by
    intro L
    have h1 : readRun isAlphaC (some 'e') ('n' :: 'd' :: '0' :: '.' :: rest)
        = (['e', 'n', 'd'], some '0', '.' :: rest) := by
      have := readRun_exact (p := isAlphaC) ['n', 'd'] 'e' '0' ('.' :: rest)
        (by decide) (by decide)
      simpa using this
    have hre : readEntry 'e' ('n' :: 'd' :: '0' :: '.' :: rest)
        = (['e', 'n', 'd'], false, ['0'], [], some '.', rest) := by
      have h2 : readRun isDigitC (some '0') ('.' :: rest)
          = (['0'], some '.', rest) := by
        have := readRun_exact (p := isDigitC) [] '0' '.' rest
          (by decide) (by decide)
        simpa using this
      have h3 : readRun isAlphaC (some '.') rest = ([], some '.', rest) :=
        readRun_stop (by decide) rest
      simp [readEntry, h1, h2, h3]
    simp only [parseEntry, hre]
    rw [if_pos (by decide : (97 ≤ 'e'.toNat ∧ 'e'.toNat ≤ 122))]
    rw [if_pos (show ('.' = '>' ∨ True) from Or.inr trivial)]
    split
    · rename_i hfalse
      exact absurd hfalse (by simp)
    split
    · rfl
    · rename_i hss
      exfalso
      refine hss ?_
      have h := strstrB_append endMarker ('(' :: L.repr.data)
      simp only [endMarker, List.cons_append, List.nil_append,
        List.append_assoc] at h ⊢
      exact h
  refine ⟨?_, hp line⟩
  rw [loadLoop]
  rw [if_neg (by decide : ¬('e' = nulChar))]
  rw [if_neg (by decide : ¬(isSpaceC 'e' = true))]
  rw [hp (line + 1)]

/-- A digit is not alphabetic. -/
lemma not_alpha_of_digit {x : Char} (h : isDigitC x = true) :
    isAlphaC x = false := by
  simp only [isDigitC, Bool.and_eq_true, decide_eq_true_eq] at h
  rw [Bool.eq_false_iff]
  intro hc
  simp only [isAlphaC, Bool.or_eq_true, Bool.and_eq_true,
    decide_eq_true_eq] at hc
  omega

/-- A digit is not the intact-flag character `*`. -/
lemma digit_ne_star {x : Char} (h : isDigitC x = true) : x ≠ '*' := by
  rintro rfl
  exact absurd h (by decide)

/-- A lowercase letter is not the NUL terminator. -/
lemma ne_nul_of_lower {c : Char} (h1 : 97 ≤ c.toNat) : c ≠ nulChar := by
  rintro rfl
  exact absurd h1 (by decide)

/-- A lowercase letter is not a space character. -/
lemma not_space_of_lower {c : Char} (h1 : 97 ≤ c.toNat) :
    isSpaceC c = false := by
  rw [Bool.eq_false_iff]
  intro hs
  simp only [isSpaceC, Bool.or_eq_true, Bool.and_eq_true,
    decide_eq_true_eq] at hs
  omega

/-- C7: compilation fails with the grammar error — and returns no table at
all, partial or otherwise — for every entry whose first character is outside
`a`–`z` (its code point outside 97–122; the character is not NUL, which
stops the read loop, and not whitespace, which is skipped), and for every
entry whose terminator position holds a character that is neither `>` nor
`.` (the terminator position is the first character after the suffix run,
optional `*`, digit run and append run). -/
theorem claim7_grammar_errors :
    (∀ (fuel line : Nat) (rules : RuleTable) (c : Char) (s : List Char),
      c ≠ nulChar → isSpaceC c = false → ¬(97 ≤ c.toNat ∧ c.toNat ≤ 122) →
      loadLoop (fuel + 1) line rules (c :: s) = .error .grammarError) ∧
    (∀ (fuel line : Nat) (rules : RuleTable) (c : Char) (sfx ds : List Char)
      (t : Char) (rest : List Char),
      97 ≤ c.toNat → c.toNat ≤ 122 →
      (∀ x ∈ sfx, isAlphaC x = true) → (∀ x ∈ ds, isDigitC x = true) →
      isAlphaC t = false → isDigitC t = false → t ≠ '*' → t ≠ '>' → t ≠ '.' →
      loadLoop (fuel + 1) line rules (c :: (sfx ++ ds ++ t :: rest))
        = .error .grammarError) := by
  constructor
  · intro fuel line rules c s hnul hsp hcz
    rw [loadLoop, if_neg hnul, if_neg (by simp [hsp])]
    have hpe : parseEntry (line + 1) c s = .error .grammarError := by
      simp only [parseEntry]
      rw [if_neg hcz]
    rw [hpe]
  · intro fuel line rules c sfx ds t rest h1 h2 hsfx hds hta htd hstar hgt hdot
    have hca : isAlphaC c = true := isAlphaC_of_lower h1 h2
    have hall : ∀ x ∈ c :: sfx, isAlphaC x = true := by
      intro x hx
      rcases List.mem_cons.mp hx with rfl | hx
      · exact hca
      · exact hsfx x hx
    rw [loadLoop, if_neg (ne_nul_of_lower h1),
      if_neg (by simp [not_space_of_lower h1])]
    have hterm : ¬(t = '>' ∨ t = '.') := by
      rintro (rfl | rfl)
      · exact hgt rfl
      · exact hdot rfl
    have hpe : parseEntry (line + 1) c (sfx ++ ds ++ t :: rest)
        = .error .grammarError := by
      cases ds with
      | nil =>
        have hp1 : readRun isAlphaC (some c) (sfx ++ [] ++ t :: rest)
            = (c :: sfx, some t, rest) := by
          have := readRun_exact sfx c t rest hall hta
          simpa using this
        have hre : readEntry c (sfx ++ [] ++ t :: rest)
            = (c :: sfx, false, [], [], some t, rest) := by
          simp only [readEntry, hp1]
          rw [if_neg (by simp [hstar])]
          simp [readRun_stop htd rest, readRun_stop hta rest]
        simp only [parseEntry, hre]
        rw [if_pos ⟨h1, h2⟩, if_neg hterm]
      | cons d ds' =>
        have hd : isDigitC d = true := hds d (List.mem_cons_self ..)
        have hp1 : readRun isAlphaC (some c) (sfx ++ (d :: ds') ++ t :: rest)
            = (c :: sfx, some d, ds' ++ t :: rest) := by
          have := readRun_exact (p := isAlphaC) sfx c d (ds' ++ t :: rest)
            hall (not_alpha_of_digit hd)
          simpa using this
        have hp3 : readRun isDigitC (some d) (ds' ++ t :: rest)
            = (d :: ds', some t, rest) := by
          refine readRun_exact ds' d t rest ?_ htd
          intro x hx
          exact hds x hx
        have hre : readEntry c (sfx ++ (d :: ds') ++ t :: rest)
            = (c :: sfx, false, d :: ds', [], some t, rest) := by
          simp only [readEntry, hp1]
          rw [if_neg (by simp [digit_ne_star hd])]
          simp [hp3, readRun_stop hta rest]
        simp only [parseEntry, hre]
        rw [if_pos ⟨h1, h2⟩, if_neg hterm]
    rw [hpe]

/-- C7 witness: the entry starting with `?` and the entry `ab2;…`, whose
terminator position holds `;`, both abort compilation with the grammar
error. -/
theorem claim7_witness :
    loadLoop 1 0 emptyTable ['?'] = .error .grammarError ∧
      loadLoop 1 0 emptyTable ('a' :: (['b'] ++ ['2'] ++ ';' :: []))
        = .error .grammarError :=
  ⟨claim7_grammar_errors.1 0 0 emptyTable '?' [] (by decide) (by decide)
      (by decide),
    claim7_grammar_errors.2 0 0 emptyTable 'a' ['b'] ['2'] ';' []
      (by decide) (by decide) (by decide) (by decide) (by decide) (by decide)
      (by decide) (by decide) (by decide)⟩

/-- C8: the compiler reverses the raw suffix run before storing it.  The
in-place swap loop `ReverseString` is extensionally `List.reverse`; every
successfully parsed entry stores the reversal of the raw alphabetic run it
read; and concretely, compiling the stream `gni2.\nend0.` stores the rule
for suffix `ing` — `suffix = "ing"`, not `"gni"` — in bucket `g`. -/
theorem claim8_suffix_reversal :
    (∀ l : List Char, ReverseString l = l.reverse) ∧
    (∀ (line : Nat) (c : Char) (s : List Char) (r : Rule) (rest : List Char),
      parseEntry line c s = .ok (some (r, rest)) →
      r.suffix = (readRun isAlphaC (some c) s).1.reverse) ∧
    Except.map (fun T => T 'g') (LoadRules sIng) = .ok [rIng] := by
  refine ⟨reverseString_eq_reverse, ?_, rfl⟩
  intro line c s r rest h
  rw [(parseEntry_inv h).2, reverseString_eq_reverse]

/-- C8 witness: the entry `gni2.` stores suffix `ing`, the reversal of the
raw run `gni` it read. -/
theorem claim8_witness :
    rIng.suffix
      = (readRun isAlphaC (some 'g') ['n', 'i', '2', '.', '\n']).1.reverse :=
  claim8_suffix_reversal.2.1 1 'g' ['n', 'i', '2', '.', '\n'] rIng [] rfl

/-- C9 counterexample: the suffix run is read with `isalpha`, which accepts
uppercase letters, so a compiled suffix need not be solely lowercase: the
stream `aBc0.\nend0.` compiles successfully and stores the suffix `cBa`,
whose `B` is outside `a`–`z`. -/
theorem claim9_counterexample :
    Except.map (fun T => (T 'a').map (fun r => r.suffix)) (LoadRules sUpper)
        = .ok [['c', 'B', 'a']] ∧
      (['c', 'B', 'a'] : List Char).all
        (fun x => 97 ≤ x.toNat && x.toNat ≤ 122) = false :=
  ⟨rfl, by decide⟩

/-- C9 (amended): in every rule table successfully produced by the
compiler, every rule's suffix is non-empty and composed solely of
alphabetic characters (`isalpha`, so uppercase letters can occur), and its
last character — the bucket key, the first character of the raw entry — is
a lowercase letter (code point 97–122). -/
theorem claim9_suffix_invariant (s : List Char) (T : RuleTable)
    (h : LoadRules s = .ok T) :
    ∀ c r, r ∈ T c → r.suffix ≠ [] ∧ (∀ x ∈ r.suffix, isAlphaC x = true) ∧
      ∃ y, r.suffix.getLast? = some y ∧ 97 ≤ y.toNat ∧ y.toNat ≤ 122 :=
  loadLoop_tableOk _ _ _ _ _ tableOk_empty h

/-- C9 witness: the table compiled from `ba2.\nend0.` holds the rule with
suffix `ab` in bucket `b`, and that suffix satisfies the invariant. -/
theorem claim9_witness :
    rGood ∈ TGood 'b' ∧
      (rGood.suffix ≠ [] ∧ (∀ x ∈ rGood.suffix, isAlphaC x = true) ∧
        ∃ y, rGood.suffix.getLast? = some y ∧ 97 ≤ y.toNat ∧
          y.toNat ≤ 122) :=
  ⟨by decide, claim9_suffix_invariant sGood TGood rfl 'b' rGood (by decide)⟩

set_option maxRecDepth 4000 in
/-- C10 counterexample: for the 255-character word `W255a` (254 consonants
then a vowel), `is_acceptable(word)` is true, yet the returned stem is the
unacceptable 254-consonant truncation: the guard runs on the truncated stem
buffer, so the invariant fails for over-long words. -/
theorem claim10_counterexample :
    IsValid W255a = true ∧
      StemWord 1 emptyTable W255a = some (W254, []) ∧
      IsValid W254 = false := by
  refine ⟨by decide, by decide, by decide⟩

/-- C10 (amended with the stem-buffer bound): for words of length at most
254, acceptability is a loop invariant.  Every candidate the bucket scan
accepts passed `IsValid` (the gate before the stem is replaced); from an
acceptable stem, whatever the loop returns is acceptable and in particular
non-empty; hence an acceptable input word yields an acceptable, non-empty
final stem. -/
theorem claim10_acceptability_invariant (T : RuleTable) (fuel : Nat) :
    (∀ (bucket : List Rule) (stem : List Char) (intact : Bool) (r : Rule)
        (cand : List Char),
      firstWin bucket stem intact = some (r, cand) → IsValid cand = true) ∧
    (∀ (stem : List Char) (intact : Bool) (dbg : List Char)
        (out : List Char × List Char), IsValid stem = true →
      stemIter T fuel stem intact dbg = some out →
      IsValid out.1 = true ∧ out.1 ≠ []) ∧
    (∀ (w : List Char) (out : List Char × List Char), w.length ≤ 254 →
      IsValid w = true → StemWord fuel T w = some out →
      IsValid out.1 = true ∧ out.1 ≠ []) := by
  have hIter : ∀ (stem : List Char) (intact : Bool) (dbg : List Char)
      (out : List Char × List Char), IsValid stem = true →
      stemIter T fuel stem intact dbg = some out →
      IsValid out.1 = true ∧ out.1 ≠ [] := by
    intro stem intact dbg out hstem heq
    have hv := stemIter_isValid fuel stem intact dbg out hstem heq
    exact ⟨hv, ne_nil_of_isValid hv⟩
  refine ⟨?_, hIter, ?_⟩
  · intro bucket stem intact r cand h
    exact (firstWin_eq_some h).2.2.2
  · intro w out hlen hv heq
    simp only [StemWord, List.take_of_length_le hlen, hv, if_true] at heq
    exact hIter w true w out hv heq

/-- C10 witness: the acceptable word `ab` under the empty table yields the
acceptable, non-empty stem `ab`. -/
theorem claim10_witness :
    IsValid ['a', 'b'] = true ∧ (['a', 'b'] : List Char) ≠ [] :=
  (claim10_acceptability_invariant emptyTable 1).2.2 ['a', 'b']
    (['a', 'b'], ['a', 'b']) (by decide) (by decide) rfl

end PaiceHusk
